import Mathlib

/-!
Shallow embedding of the HeyAI voice backend's streaming core, translated
from the Go sources: the sentence-boundary segmenter and audio-framing loop
of `streamGeminiAndTTS` / `streamToElevenLabsAndTwilio`, the per-call
connection registry (`activeStreams`), the webhook handlers
(`processSpeechHandler`, `speechResultHandler`), and the agent handler
(`handleInProgressCall`, `shouldEndConversation`, `ProcessVoiceInput`).
Strings are modelled as `List Char`; external network effects (the model
call, the synthesis call) are modelled by passing their results as
parameters and recording the requests the code builds.
-/

namespace HeyAI

/-- Whitespace test mirroring Go `unicode.IsSpace` on the Latin-1 range
(tab, newline, vertical tab, form feed, carriage return, space, NEL, NBSP). -/
def isSpaceChar (c : Char) : Bool :=
  c = ' ' || c = '\t' || c = '\n' || c.toNat = 11 || c.toNat = 12 ||
  c = '\r' || c.toNat = 133 || c.toNat = 160

/-- Go `strings.TrimSpace`: drop whitespace from both ends. -/
def trimSpace (l : List Char) : List Char :=
  ((l.dropWhile isSpaceChar).reverse.dropWhile isSpaceChar).reverse

/-- Index of the right-most occurrence of `c` in `l`, `-1` when absent,
mirroring Go `strings.LastIndex` for a single-character pattern. -/
def lastIdx (c : Char) : List Char → Int
  | [] => -1
  | x :: xs =>
    let r := lastIdx c xs
    if 0 ≤ r then r + 1 else if x = c then 0 else -1

/-- Go `strings.Contains`: `pat` occurs as a contiguous substring of `s`. -/
def containsSub (s pat : List Char) : Bool :=
  pat.isPrefixOf s ||
    match s with
    | [] => false
    | _ :: t => containsSub t pat

/-- Go `strings.ToLower` restricted to the ASCII letters the handlers compare. -/
def goLower (l : List Char) : List Char :=
  l.map fun c => if 'A' ≤ c && c ≤ 'Z' then Char.ofNat (c.toNat + 32) else c

/-! ## SentenceSegmenter (`streamGeminiAndTTS`, src/unnamed/part_000 lines 221-281)

The Go loop keeps a `sentenceBuffer` and the list of sentences already sent
to TTS.  `feed` is one iteration of the per-chunk body; `flushEmitted` is
the trailing "send any remaining text" block. -/

structure SegState where
  emitted : List (List Char)
  buffer : List Char
deriving DecidableEq

def initSeg : SegState := ⟨[], []⟩

/-- The boundary computation of `streamGeminiAndTTS` lines 242-252: three
`LastIndex` calls maximised by an if-chain. -/
def lastBoundaryOf (text : List Char) : Int :=
  let lastPeriod := lastIdx '.' text
  let lastExclaim := lastIdx '!' text
  let lastQuestion := lastIdx '?' text
  let b1 := lastPeriod
  let b2 := if lastExclaim > b1 then lastExclaim else b1
  if lastQuestion > b2 then lastQuestion else b2

/-- One chunk step of `streamGeminiAndTTS`: append the chunk, look for the
right-most sentence terminal among `.`, `!`, `?`, and when that boundary
index is positive, emit the trimmed prefix and keep the remainder. -/
def feed (st : SegState) (chunk : List Char) : SegState :=
  let text := st.buffer ++ chunk
  if text.contains '.' || text.contains '!' || text.contains '?' then
    let lastBoundary := lastBoundaryOf text
    if lastBoundary > 0 then
      { emitted := st.emitted ++ [trimSpace (text.take (lastBoundary.toNat + 1))],
        buffer := text.drop (lastBoundary.toNat + 1) }
    else
      { st with buffer := text }
  else
    { st with buffer := text }

/-- Feed a whole chunk sequence, in order. -/
def feedAll (st : SegState) (chunks : List (List Char)) : SegState :=
  chunks.foldl feed st

/-- The terminal flush of `streamGeminiAndTTS`: when the buffer is nonempty
and trims to a nonempty string, it is sent as a final sentence. -/
def flushEmitted (st : SegState) : List (List Char) :=
  if st.buffer.length > 0 then
    let remaining := trimSpace st.buffer
    if remaining ≠ [] then st.emitted ++ [remaining] else st.emitted
  else st.emitted

/-! ## Audio framing (`streamToElevenLabsAndTwilio`, src/unnamed/part_000 lines 330-351) -/

/-- Frame size used by the delivery loop: 160 bytes, 20 ms of 8 kHz audio. -/
def frameSize : Nat := 160

/-- The framing loop `for i := 0; i < len(audioData); i += chunkSize`:
each iteration takes the slice `audioData[i:min(i+160,len)]`. -/
def frame (audio : List Nat) : List (List Nat) :=
  match audio with
  | [] => []
  | x :: xs => (x :: xs).take frameSize :: frame ((x :: xs).drop frameSize)
termination_by audio.length
decreasing_by simp [frameSize, List.length_drop]; omega

/-! ## CallConnectionRegistry (`activeStreams`, src/unnamed/part_000 lines 37-41)

The Go code keeps a `map[string]*SafeWS` under a `RWMutex`; the map itself
is embedded as its lookup function.  `register` is the assignment in the
`start` event handler, `remove` the `delete` in the `stop`/read-error
paths, `lookup` the read in `processSpeechHandler`. -/

abbrev CallId := List Char
abbrev Conn := Nat

def Registry := CallId → Option Conn

def emptyRegistry : Registry := fun _ => none

def register (r : Registry) (k : CallId) (c : Conn) : Registry :=
  fun q => if q = k then some c else r q

def lookup (r : Registry) (k : CallId) : Option Conn := r k

def remove (r : Registry) (k : CallId) : Registry :=
  fun q => if q = k then none else r q

/-! ## Text constants and escaping helpers used by the webhook handlers -/

/-- Apostrophe character (used inside several spoken texts). -/
def apos : Char := Char.ofNat 39

/-- Go `html.EscapeString` on one character: the five special characters. -/
def htmlEscapeChar (c : Char) : List Char :=
  if c = '&' then "&amp;".toList
  else if c = apos then "&#39;".toList
  else if c = '<' then "&lt;".toList
  else if c = '>' then "&gt;".toList
  else if c = '"' then "&#34;".toList
  else [c]

/-- Go `html.EscapeString`. -/
def htmlEscapeString (l : List Char) : List Char := l.flatMap htmlEscapeChar

/-- Characters Go `url.QueryEscape` leaves unescaped. -/
def queryUnreserved (c : Char) : Bool :=
  ('A' ≤ c && c ≤ 'Z') || ('a' ≤ c && c ≤ 'z') || ('0' ≤ c && c ≤ '9') ||
  c = '-' || c = '_' || c = '.' || c = '~'

/-- UTF-8 byte encoding of one character. -/
def utf8Bytes (c : Char) : List Nat :=
  let n := c.toNat
  if n < 128 then [n]
  else if n < 2048 then [192 + n / 64, 128 + n % 64]
  else if n < 65536 then [224 + n / 4096, 128 + n / 64 % 64, 128 + n % 64]
  else [240 + n / 262144, 128 + n / 4096 % 64, 128 + n / 64 % 64, 128 + n % 64]

def upperHexDigit (n : Nat) : Char :=
  if n < 10 then Char.ofNat (48 + n) else Char.ofNat (55 + n)

/-- Percent-encoding of one byte, uppercase hex as Go emits it. -/
def pctByte (b : Nat) : List Char := ['%', upperHexDigit (b / 16), upperHexDigit (b % 16)]

/-- Go `url.QueryEscape`: unreserved characters kept, space to `+`,
everything else percent-encoded per UTF-8 byte. -/
def queryEscape (l : List Char) : List Char :=
  l.flatMap fun c =>
    if queryUnreserved c then [c]
    else if c = ' ' then ['+']
    else (utf8Bytes c).flatMap pctByte

/-- The repository helper `urlQueryEscape`: `QueryEscape` then
`ReplaceAll "+" "%20"` (a single-character pattern, so per-character). -/
def urlQueryEscape (l : List Char) : List Char :=
  (queryEscape l).flatMap fun c => if c = '+' then "%20".toList else [c]

def okayGoodbyeText : List Char := "Okay, goodbye!".toList
def whatElseText : List Char := "What else can I help you with?".toList
def noResponseText : List Char := "No response detected. Goodbye!".toList
def didntCatchText : List Char :=
  "I didn".toList ++ [apos] ++ "t catch that. Goodbye.".toList
def connErrorText : List Char := "Sorry, there was a connection error. Goodbye.".toList
def askAnotherText : List Char :=
  "Ask me another question, or stay silent to end the call.".toList
def thanksGoodbyeText : List Char := "Thanks for calling. Goodbye!".toList
def troubleText : List Char :=
  "I".toList ++ [apos] ++ "m having trouble processing your request. Please try again later.".toList

/-! ## TwiML output of the plain-HTTP handlers, as structured verbs

The Go handlers emit literal TwiML strings; each emitted document is
embedded as the ordered list of its verbs. -/

inductive Verb where
  | say (text : List Char)
  | play (url : List Char)
  | gatherSpeech (prompt : Option (List Char))
  | pause (len : Nat)
  | hangup
deriving DecidableEq

/-- Termination check of `speechResultHandler` (src/main.go lines 106-107):
lower-case the transcript and look for the two phrases. -/
def wantsHangup (userText : List Char) : Bool :=
  let lower := goLower userText
  containsSub lower "hang up".toList || containsSub lower "goodbye".toList

/-- The `/audio` URL `speechResultHandler` builds: prepend the scheme when
missing, then the `html.EscapeString`-ed answer, URL-escaped. -/
def audioURL (host answer : List Char) : List Char :=
  let h := if ("http".toList).isPrefixOf host then host else "https://".toList ++ host
  h ++ "/audio?text=".toList ++ urlQueryEscape (htmlEscapeString answer)

/-- `speechResultHandler` (src/main.go lines 97-140): on a termination
phrase reply farewell plus `<Hangup/>`; otherwise play the answer audio and
gather further speech.  `answer` stands for the `askGemini` result after
the error fallback. -/
def speechResultResponse (userText answer host : List Char) : List Verb :=
  if wantsHangup userText then
    [.say okayGoodbyeText, .hangup]
  else
    [.play (audioURL host answer), .gatherSpeech (some whatElseText), .say noResponseText]

/-- `processSpeechHandler` (src/unnamed/part_000 lines 76-126): empty
speech gets an apology, a missing registry entry gets a connection-error
apology, otherwise the streaming pipeline is launched (the returned `Bool`)
and a hold response (pause, gather, fallback goodbye) is sent. -/
def processSpeech (reg : Registry) (speechResult callSid : List Char) :
    List Verb × Bool :=
  if speechResult = [] then
    ([.say didntCatchText], false)
  else
    match lookup reg callSid with
    | none => ([.say connErrorText], false)
    | some _ =>
      ([.pause 15, .gatherSpeech (some askAnotherText), .say thanksGoodbyeText], true)

/-! ## Agent webhook handler (src/internal/handlers/agent.go) -/

/-- `models.TwilioResponse` as marshalled by the twilio service: top-level
Say verbs, an optional Gather holding a Say, and an optional Hangup. -/
structure GoTwiML where
  say : List (List Char)
  gatherSay : Option (List Char)
  hangup : Bool
deriving DecidableEq

/-- `TwilioService.GenerateTwiMLResponse`. -/
def generateTwiMLResponse (sayText : List Char) (gather : Bool) : GoTwiML :=
  if gather then ⟨[], some sayText, false⟩ else ⟨[sayText], none, false⟩

/-- `TwilioService.GenerateHangupResponse`: a Say followed by Hangup. -/
def generateHangupResponse (sayText : List Char) : GoTwiML :=
  ⟨[sayText], none, true⟩

/-- One `models.Message` (role and content; the timestamp is irrelevant
to every claim). -/
structure Msg where
  role : List Char
  content : List Char
deriving DecidableEq

def userRole : List Char := "user".toList
def assistantRole : List Char := "assistant".toList
def modelRole : List Char := "model".toList

/-- The fixed vocabulary of `shouldEndConversation` (agent.go lines 233-239). -/
def goodbyePhrases : List (List Char) :=
  ["goodbye".toList, "bye".toList, "have a great day".toList,
   "take care".toList, "talk to you later".toList]

/-- `shouldEndConversation` (agent.go lines 231-249): case-insensitive
substring match of the AI response against the vocabulary. -/
def shouldEndConversation (response : List Char) : Bool :=
  let responseLower := goLower response
  goodbyePhrases.any fun phrase => containsSub responseLower phrase

/-- The chat history `ProcessVoiceInput` (vertexai.go lines 58-67) builds
from the session history: each message becomes a (role, content) pair with
`assistant`/`model` mapped to `model` and everything else to `user`. -/
def toChatHistory (history : List Msg) : List (List Char × List Char) :=
  history.map fun m =>
    (if m.role = assistantRole || m.role = modelRole then modelRole else userRole,
     m.content)

/-- The request `ProcessVoiceInput` sends: the chat history built from the
session plus the user input passed to `SendMessage`. -/
def processVoiceInputRequest (history : List Msg) (userInput : List Char) :
    List (List Char × List Char) × List Char :=
  (toChatHistory history, userInput)

def greetingText (agentName : List Char) : List Char :=
  "Hello! You".toList ++ [apos] ++ "ve reached ".toList ++ agentName ++
  ". How can I help you today?".toList

/-- `handleInProgressCall` (agent.go lines 87-152).  `aiResult` is the
outcome of the external `ProcessVoiceInput` call (`none` = error).  The
result is the TwiML response, the session history after the turn, and the
model request issued (`none` when no model call was made). -/
def handleInProgressCall (agentName : List Char) (history : List Msg)
    (speechResult : List Char) (aiResult : Option (List Char)) :
    GoTwiML × List Msg × Option (List (List Char × List Char) × List Char) :=
  if speechResult = [] then
    (generateTwiMLResponse (greetingText agentName) true, history, none)
  else
    let h1 := history ++ [⟨userRole, speechResult⟩]
    let req := processVoiceInputRequest h1 speechResult
    match aiResult with
    | none => (generateHangupResponse troubleText, h1, some req)
    | some aiResponse =>
      let h2 := h1 ++ [⟨assistantRole, aiResponse⟩]
      (if shouldEndConversation aiResponse then generateHangupResponse aiResponse
       else generateTwiMLResponse aiResponse true,
       h2, some req)

/-- The prompt `streamGeminiAndTTS` (src/unnamed/part_000 line 216) passes
to the model: a fixed instruction plus the current utterance only. -/
def streamPromptOf (prompt : List Char) : List Char :=
  "You are a concise helpful assistant. Give a brief answer in 2-3 sentences: ".toList
    ++ prompt

/-! ## Facts about `lastIdx` and `lastBoundaryOf` -/

/-- The three sentence-terminal characters of the segmenter. -/
def isTerminalChar (c : Char) : Bool := c = '.' || c = '!' || c = '?'

theorem neg_one_le_lastIdx (c : Char) (l : List Char) : -1 ≤ lastIdx c l := by
  induction l with
  | nil => simp [lastIdx]
  | cons x xs ih =>
    simp only [lastIdx]
    split
    · omega
    · split <;> omega

theorem lastIdx_lt_length (c : Char) (l : List Char) : lastIdx c l < (l.length : Int) := by
  induction l with
  | nil => simp [lastIdx]
  | cons x xs ih =>
    simp only [lastIdx, List.length_cons]
    split
    · omega
    · split <;> omega

theorem getElem?_lastIdx (c : Char) (l : List Char) (h : 0 ≤ lastIdx c l) :
    l[(lastIdx c l).toNat]? = some c := by
  induction l with
  | nil => simp [lastIdx] at h
  | cons x xs ih =>
    simp only [lastIdx] at h ⊢
    by_cases h0 : 0 ≤ lastIdx c xs
    · rw [if_pos h0] at h ⊢
      have ht : (lastIdx c xs + 1).toNat = (lastIdx c xs).toNat + 1 := by omega
      rw [ht, List.getElem?_cons_succ]
      exact ih h0
    · rw [if_neg h0] at h ⊢
      by_cases hx : x = c
      · simp [hx]
      · rw [if_neg hx] at h
        omega

theorem le_lastIdx_of_getElem? (c : Char) (l : List Char) (i : Nat) (h : l[i]? = some c) :
    (i : Int) ≤ lastIdx c l := by
  induction l generalizing i with
  | nil => simp at h
  | cons x xs ih =>
    simp only [lastIdx]
    cases i with
    | zero =>
      by_cases h0 : 0 ≤ lastIdx c xs
      · rw [if_pos h0]; omega
      · rw [if_neg h0]
        simp only [List.getElem?_cons_zero, Option.some.injEq] at h
        rw [if_pos h]
        omega
    | succ n =>
      have hn := ih n (by simpa using h)
      split
      · omega
      · omega

theorem lastIdx_nonneg_iff_mem (c : Char) (l : List Char) :
    0 ≤ lastIdx c l ↔ c ∈ l := by
  induction l with
  | nil => simp [lastIdx]
  | cons x xs ih =>
    simp only [lastIdx, List.mem_cons]
    have := neg_one_le_lastIdx c xs
    by_cases h0 : 0 ≤ lastIdx c xs
    · rw [if_pos h0]
      constructor
      · intro _; exact Or.inr (ih.mp h0)
      · intro _; omega
    · rw [if_neg h0]
      by_cases hx : x = c
      · simp [hx]
      · rw [if_neg hx]
        constructor
        · omega
        · intro hm
          rcases hm with hm | hm
          · exact absurd hm.symm hx
          · exact absurd (ih.mpr hm) h0

theorem lastBoundaryOf_cases (text : List Char) :
    lastBoundaryOf text = lastIdx '.' text ∨ lastBoundaryOf text = lastIdx '!' text ∨
      lastBoundaryOf text = lastIdx '?' text := by
  simp only [lastBoundaryOf]
  split_ifs <;> simp

theorem lastIdx_dot_le (text : List Char) : lastIdx '.' text ≤ lastBoundaryOf text := by
  simp only [lastBoundaryOf]; split_ifs <;> omega

theorem lastIdx_exclaim_le (text : List Char) : lastIdx '!' text ≤ lastBoundaryOf text := by
  simp only [lastBoundaryOf]; split_ifs <;> omega

theorem lastIdx_question_le (text : List Char) : lastIdx '?' text ≤ lastBoundaryOf text := by
  simp only [lastBoundaryOf]; split_ifs <;> omega

theorem lastBoundaryOf_lt_length (text : List Char) :
    lastBoundaryOf text < (text.length : Int) := by
  have h1 := lastIdx_lt_length '.' text
  have h2 := lastIdx_lt_length '!' text
  have h3 := lastIdx_lt_length '?' text
  rcases lastBoundaryOf_cases text with h | h | h <;> omega

theorem exists_terminal_at_lastBoundaryOf (text : List Char) (h : 0 ≤ lastBoundaryOf text) :
    ∃ c, text[(lastBoundaryOf text).toNat]? = some c ∧ isTerminalChar c = true := by
  rcases lastBoundaryOf_cases text with hc | hc | hc
  · exact ⟨'.', by rw [hc]; exact getElem?_lastIdx _ _ (hc ▸ h), by decide⟩
  · exact ⟨'!', by rw [hc]; exact getElem?_lastIdx _ _ (hc ▸ h), by decide⟩
  · exact ⟨'?', by rw [hc]; exact getElem?_lastIdx _ _ (hc ▸ h), by decide⟩

theorem isTerminalChar_iff (c : Char) :
    isTerminalChar c = true ↔ c = '.' ∨ c = '!' ∨ c = '?' := by
  simp [isTerminalChar, or_assoc]

theorem le_lastBoundaryOf_of_terminal (text : List Char) (i : Nat) (c : Char)
    (hg : text[i]? = some c) (ht : isTerminalChar c = true) :
    (i : Int) ≤ lastBoundaryOf text := by
  rcases (isTerminalChar_iff c).mp ht with hc | hc | hc
  · have := le_lastIdx_of_getElem? c text i hg
    have := lastIdx_dot_le text
    rw [hc] at *
    omega
  · have := le_lastIdx_of_getElem? c text i hg
    have := lastIdx_exclaim_le text
    rw [hc] at *
    omega
  · have := le_lastIdx_of_getElem? c text i hg
    have := lastIdx_question_le text
    rw [hc] at *
    omega

/-- The boundary the code computes is the right-most terminal character:
a terminal at index `b` with no terminal after it pins `lastBoundaryOf`. -/
theorem lastBoundaryOf_eq_of_rightmost (text : List Char) (b : Nat) (c : Char)
    (hget : text[b]? = some c) (hterm : isTerminalChar c = true)
    (hafter : (text.drop (b + 1)).all (fun d => !isTerminalChar d) = true) :
    lastBoundaryOf text = (b : Int) := by
  have hle : (b : Int) ≤ lastBoundaryOf text := le_lastBoundaryOf_of_terminal text b c hget hterm
  have h0 : 0 ≤ lastBoundaryOf text := by omega
  obtain ⟨d, hd, hdt⟩ := exists_terminal_at_lastBoundaryOf text h0
  by_contra hne
  have hgt : b + 1 ≤ (lastBoundaryOf text).toNat := by omega
  have hd' : (text.drop (b + 1))[(lastBoundaryOf text).toNat - (b + 1)]? = some d := by
    rw [List.getElem?_drop]
    rw [show b + 1 + ((lastBoundaryOf text).toNat - (b + 1)) = (lastBoundaryOf text).toNat by omega]
    exact hd
  have hmem : d ∈ text.drop (b + 1) := List.getElem?_mem hd'
  have := List.all_eq_true.mp hafter d hmem
  rw [hdt] at this
  simp at this

theorem contains_iff_mem (l : List Char) (c : Char) : l.contains c = true ↔ c ∈ l := by
  simp

theorem containsAny_iff (text : List Char) :
    (text.contains '.' || text.contains '!' || text.contains '?') = true ↔
      0 ≤ lastBoundaryOf text := by
  have h1 := lastIdx_dot_le text
  have h2 := lastIdx_exclaim_le text
  have h3 := lastIdx_question_le text
  have m1 := lastIdx_nonneg_iff_mem '.' text
  have m2 := lastIdx_nonneg_iff_mem '!' text
  have m3 := lastIdx_nonneg_iff_mem '?' text
  simp only [Bool.or_eq_true, contains_iff_mem]
  constructor
  · intro h
    rcases h with (h | h) | h
    · have := m1.mpr h; omega
    · have := m2.mpr h; omega
    · have := m3.mpr h; omega
  · intro h
    rcases lastBoundaryOf_cases text with hc | hc | hc
    · exact Or.inl (Or.inl (m1.mp (by omega)))
    · exact Or.inl (Or.inr (m2.mp (by omega)))
    · exact Or.inr (m3.mp (by omega))

/-- `feed` with no positive boundary (none of the three characters present,
or the right-most one at index 0) only appends to the buffer. -/
theorem feed_no_boundary (st : SegState) (chunk : List Char)
    (h : lastBoundaryOf (st.buffer ++ chunk) < 1) :
    feed st chunk = { st with buffer := st.buffer ++ chunk } := by
  simp only [feed]
  split
  · rw [if_neg (by omega)]
  · rfl

/-- `feed` with a positive boundary emits the trimmed prefix and keeps the
remainder. -/
theorem feed_extract (st : SegState) (chunk : List Char)
    (h : 1 ≤ lastBoundaryOf (st.buffer ++ chunk)) :
    feed st chunk =
      { emitted := st.emitted ++
          [trimSpace ((st.buffer ++ chunk).take ((lastBoundaryOf (st.buffer ++ chunk)).toNat + 1))],
        buffer := (st.buffer ++ chunk).drop ((lastBoundaryOf (st.buffer ++ chunk)).toNat + 1) } := by
  have hc := (containsAny_iff (st.buffer ++ chunk)).mpr (by omega)
  simp only [feed]
  rw [if_pos hc, if_pos (by omega)]

/-! ## Facts about `trimSpace` -/

/-- A string made of whitespace only. -/
def allWS (l : List Char) : Bool := l.all isSpaceChar

theorem allWS_takeWhile (l : List Char) : allWS (l.takeWhile isSpaceChar) = true := by
  rw [allWS, List.all_eq_true]
  intro x hx
  exact List.mem_takeWhile_imp hx

theorem allWS_reverse (l : List Char) (h : allWS l = true) : allWS l.reverse = true := by
  rw [allWS, List.all_eq_true] at *
  intro x hx
  exact h x (List.mem_reverse.mp hx)

/-- Any string splits as leading whitespace, its trim, trailing whitespace. -/
theorem trimSpace_decomp (l : List Char) :
    ∃ w1 w2, allWS w1 = true ∧ allWS w2 = true ∧ l = w1 ++ trimSpace l ++ w2 := by
  refine ⟨l.takeWhile isSpaceChar,
    ((l.dropWhile isSpaceChar).reverse.takeWhile isSpaceChar).reverse,
    allWS_takeWhile l, allWS_reverse _ (allWS_takeWhile _), ?_⟩
  conv_lhs => rw [← List.takeWhile_append_dropWhile (p := isSpaceChar) (l := l)]
  rw [List.append_assoc]
  congr 1
  calc l.dropWhile isSpaceChar
      = (l.dropWhile isSpaceChar).reverse.reverse := (List.reverse_reverse _).symm
    _ = (((l.dropWhile isSpaceChar).reverse.takeWhile isSpaceChar) ++
          ((l.dropWhile isSpaceChar).reverse.dropWhile isSpaceChar)).reverse := by
        rw [List.takeWhile_append_dropWhile]
    _ = ((l.dropWhile isSpaceChar).reverse.dropWhile isSpaceChar).reverse ++
          ((l.dropWhile isSpaceChar).reverse.takeWhile isSpaceChar).reverse := by
        rw [List.reverse_append]
    _ = trimSpace l ++ ((l.dropWhile isSpaceChar).reverse.takeWhile isSpaceChar).reverse := rfl

theorem allWS_of_trimSpace_nil (l : List Char) (h : trimSpace l = []) : allWS l = true := by
  obtain ⟨w1, w2, hw1, hw2, hl⟩ := trimSpace_decomp l
  rw [h] at hl
  rw [hl, allWS]
  simp only [List.append_nil, List.all_append, Bool.and_eq_true]
  exact ⟨hw1, hw2⟩

theorem mem_trimSpace_of_not_space (l : List Char) (c : Char)
    (hc : c ∈ l) (hns : isSpaceChar c = false) : c ∈ trimSpace l := by
  obtain ⟨w1, w2, hw1, hw2, hl⟩ := trimSpace_decomp l
  rw [hl, List.append_assoc, List.mem_append, List.mem_append] at hc
  rcases hc with hc | hc | hc
  · rw [allWS, List.all_eq_true] at hw1
    rw [hw1 c hc] at hns
    cases hns
  · exact hc
  · rw [allWS, List.all_eq_true] at hw2
    rw [hw2 c hc] at hns
    cases hns

theorem trimSpace_ne_nil_of_mem_not_space (l : List Char) (c : Char)
    (hc : c ∈ l) (hns : isSpaceChar c = false) : trimSpace l ≠ [] := by
  intro h
  have hall := allWS_of_trimSpace_nil l h
  rw [allWS, List.all_eq_true] at hall
  rw [hall c hc] at hns
  cases hns

theorem exists_nonspace_of_trimSpace_ne_nil (l : List Char) (h : trimSpace l ≠ []) :
    ∃ c ∈ trimSpace l, isSpaceChar c = false := by
  rw [trimSpace] at h ⊢
  have hm0 : (l.dropWhile isSpaceChar).reverse.dropWhile isSpaceChar ≠ [] := by
    intro hx
    rw [hx] at h
    exact h rfl
  refine ⟨((l.dropWhile isSpaceChar).reverse.dropWhile isSpaceChar).head hm0, ?_, ?_⟩
  · rw [List.mem_reverse]
    exact List.head_mem hm0
  · exact List.head_dropWhile_not isSpaceChar _ hm0

/-- A string ending in a non-space character loses nothing on the right:
it is whitespace followed by its own trim. -/
theorem eq_ws_append_trimSpace_of_getLast (l : List Char) (c : Char)
    (hl : l.getLast? = some c) (hns : isSpaceChar c = false) :
    ∃ w1, allWS w1 = true ∧ l = w1 ++ trimSpace l := by
  obtain ⟨w1, w2, hw1, hw2, hdec⟩ := trimSpace_decomp l
  refine ⟨w1, hw1, ?_⟩
  cases hw2e : w2 with
  | nil =>
    rw [hw2e] at hdec
    simpa using hdec
  | cons d t =>
    exfalso
    have hne : w2 ≠ [] := by rw [hw2e]; exact List.cons_ne_nil d t
    obtain ⟨y, hy⟩ := Option.ne_none_iff_exists'.mp
      (by simpa [List.getLast?_eq_none_iff] using hne : w2.getLast? ≠ none)
    have : l.getLast? = some y := by
      rw [hdec, List.getLast?_append, hy]
      rfl
    rw [hl] at this
    have hcy : c = y := by injection this
    have hmem : y ∈ w2 := List.mem_of_getLast?_eq_some hy
    rw [allWS, List.all_eq_true] at hw2
    rw [hcy, hw2 y hmem] at hns
    cases hns

/-! ## The round-trip decomposition relation

`SplitsWS sentences buffer text` says `text` is exactly the emitted
sentences in order, each preceded by the (possibly empty) whitespace that
trimming removed, followed by the current buffer. -/

def SplitsWS : List (List Char) → List Char → List Char → Prop
  | [], tail, text => text = tail
  | s :: rest, tail, text =>
      ∃ w t, allWS w = true ∧ text = w ++ s ++ t ∧ SplitsWS rest tail t

theorem splitsWS_append_chunk (ss : List (List Char)) (tail text c : List Char)
    (h : SplitsWS ss tail text) : SplitsWS ss (tail ++ c) (text ++ c) := by
  induction ss generalizing text with
  | nil =>
    simp only [SplitsWS] at h ⊢
    rw [h]
  | cons s rest ih =>
    obtain ⟨w, t, hw, ht, hrec⟩ := h
    exact ⟨w, t ++ c, hw, by rw [ht]; simp [List.append_assoc], ih t hrec⟩

theorem splitsWS_emit (ss : List (List Char)) (tail text w s rem : List Char)
    (h : SplitsWS ss tail text) (hdec : tail = w ++ s ++ rem) (hw : allWS w = true) :
    SplitsWS (ss ++ [s]) rem text := by
  induction ss generalizing text with
  | nil =>
    simp only [SplitsWS] at h
    subst h
    exact ⟨w, rem, hw, hdec, rfl⟩
  | cons s0 rest ih =>
    obtain ⟨w0, t0, hw0, ht0, hrec⟩ := h
    simp only [List.cons_append, SplitsWS]
    exact ⟨w0, t0, hw0, ht0, ih t0 hrec⟩

theorem terminal_not_space (c : Char) (h : isTerminalChar c = true) :
    isSpaceChar c = false := by
  rcases (isTerminalChar_iff c).mp h with h | h | h <;> subst h <;> rfl

/-- In the extraction case the appended text decomposes around the emitted
sentence: leading whitespace, the trimmed sentence, the new buffer. -/
theorem extract_decomp (txt : List Char) (h : 1 ≤ lastBoundaryOf txt) :
    ∃ w1 d, allWS w1 = true ∧ isSpaceChar d = false ∧
      d ∈ trimSpace (txt.take ((lastBoundaryOf txt).toNat + 1)) ∧
      txt = w1 ++ trimSpace (txt.take ((lastBoundaryOf txt).toNat + 1)) ++
        txt.drop ((lastBoundaryOf txt).toNat + 1) := by
  set b := (lastBoundaryOf txt).toNat with hbdef
  have h0 : 0 ≤ lastBoundaryOf txt := by omega
  obtain ⟨d, hd, hdt⟩ := exists_terminal_at_lastBoundaryOf txt h0
  have hns : isSpaceChar d = false := terminal_not_space d hdt
  have hblt : b < txt.length := by
    have := lastBoundaryOf_lt_length txt
    omega
  have htake : (txt.take (b + 1))[b]? = some d := by
    rw [List.getElem?_take_of_lt (by omega)]
    exact hd
  have hlen : (txt.take (b + 1)).length = b + 1 := by
    rw [List.length_take]
    omega
  have hlast : (txt.take (b + 1)).getLast? = some d := by
    rw [List.getLast?_eq_getElem?, hlen, Nat.add_sub_cancel]
    exact htake
  obtain ⟨w1, hw1, hw1eq⟩ := eq_ws_append_trimSpace_of_getLast (txt.take (b + 1)) d hlast hns
  refine ⟨w1, d, hw1, hns, ?_, ?_⟩
  · exact mem_trimSpace_of_not_space _ _ (List.getElem?_mem htake) hns
  · conv_lhs => rw [← List.take_append_drop (b + 1) txt, hw1eq]

/-- One `feed` step preserves the round-trip decomposition. -/
theorem splitsWS_feed (st : SegState) (c text : List Char)
    (h : SplitsWS st.emitted st.buffer text) :
    SplitsWS (feed st c).emitted (feed st c).buffer (text ++ c) := by
  by_cases hb : 1 ≤ lastBoundaryOf (st.buffer ++ c)
  · rw [feed_extract st c hb]
    obtain ⟨w1, d, hw1, _, _, hdec⟩ := extract_decomp (st.buffer ++ c) hb
    exact splitsWS_emit _ _ _ _ _ _ (splitsWS_append_chunk _ _ _ c h) hdec hw1
  · rw [feed_no_boundary st c (by omega)]
    exact splitsWS_append_chunk _ _ _ c h

theorem splitsWS_feedAll (st : SegState) (cs : List (List Char)) (text : List Char)
    (h : SplitsWS st.emitted st.buffer text) :
    SplitsWS (feedAll st cs).emitted (feedAll st cs).buffer (text ++ cs.flatten) := by
  induction cs generalizing st text with
  | nil => simpa [feedAll] using h
  | cons c cs ih =>
    have h2 := ih (feed st c) (text ++ c) (splitsWS_feed st c text h)
    simpa [feedAll, List.append_assoc] using h2

/-! ## Claim theorems about the segmenter -/

/-- C1: feeding any chunk split of a text keeps the invariant that the
emitted sentences (each with its trimmed leading whitespace restored)
followed by the buffer reproduce all text received so far; after the final
flush the emitted sentences followed by trailing whitespace reproduce the
whole text. -/
theorem segmenter_roundtrip (chunks : List (List Char)) :
    SplitsWS (feedAll initSeg chunks).emitted (feedAll initSeg chunks).buffer
      chunks.flatten ∧
    ∃ w, allWS w = true ∧
      SplitsWS (flushEmitted (feedAll initSeg chunks)) w chunks.flatten := by
  have hbase : SplitsWS initSeg.emitted initSeg.buffer [] := rfl
  have hmain := splitsWS_feedAll initSeg chunks [] hbase
  rw [List.nil_append] at hmain
  refine ⟨hmain, ?_⟩
  by_cases h0 : (feedAll initSeg chunks).buffer.length > 0
  · by_cases h1 : trimSpace (feedAll initSeg chunks).buffer = []
    · have he : flushEmitted (feedAll initSeg chunks) = (feedAll initSeg chunks).emitted := by
        simp [flushEmitted, h0, h1]
      rw [he]
      exact ⟨(feedAll initSeg chunks).buffer, allWS_of_trimSpace_nil _ h1, hmain⟩
    · have he : flushEmitted (feedAll initSeg chunks) =
          (feedAll initSeg chunks).emitted ++ [trimSpace (feedAll initSeg chunks).buffer] := by
        simp [flushEmitted, h0, h1]
      rw [he]
      obtain ⟨w1, w2, hw1, hw2, hdec⟩ := trimSpace_decomp (feedAll initSeg chunks).buffer
      exact ⟨w2, hw2, splitsWS_emit _ _ _ _ _ _ hmain hdec hw1⟩
  · have hbuf : (feedAll initSeg chunks).buffer = [] := by
      cases hb : (feedAll initSeg chunks).buffer with
      | nil => rfl
      | cons x xs => rw [hb] at h0; simp at h0
    have he : flushEmitted (feedAll initSeg chunks) = (feedAll initSeg chunks).emitted := by
      simp [flushEmitted, h0]
    rw [he]
    exact ⟨(feedAll initSeg chunks).buffer, by rw [hbuf]; rfl, hmain⟩

theorem trim_emitted_feed (st : SegState) (c : List Char)
    (h : ∀ s ∈ st.emitted, trimSpace s ≠ []) :
    ∀ s ∈ (feed st c).emitted, trimSpace s ≠ [] := by
  by_cases hb : 1 ≤ lastBoundaryOf (st.buffer ++ c)
  · rw [feed_extract st c hb]
    intro s hs
    rw [List.mem_append, List.mem_singleton] at hs
    rcases hs with hs | hs
    · exact h s hs
    · subst hs
      obtain ⟨w1, d, hw1, hns, hdm, hdec⟩ := extract_decomp (st.buffer ++ c) hb
      exact trimSpace_ne_nil_of_mem_not_space _ d hdm hns
  · rw [feed_no_boundary st c (by omega)]
    exact h

theorem trim_emitted_feedAll (st : SegState) (cs : List (List Char))
    (h : ∀ s ∈ st.emitted, trimSpace s ≠ []) :
    ∀ s ∈ (feedAll st cs).emitted, trimSpace s ≠ [] := by
  induction cs generalizing st with
  | nil => simpa [feedAll] using h
  | cons c cs ih =>
    have hstep := ih (feed st c) (trim_emitted_feed st c h)
    simpa [feedAll] using hstep

theorem trim_emitted_flush (st : SegState)
    (h : ∀ s ∈ st.emitted, trimSpace s ≠ []) :
    ∀ s ∈ flushEmitted st, trimSpace s ≠ [] := by
  intro s hs
  by_cases h0 : st.buffer.length > 0
  · by_cases h1 : trimSpace st.buffer = []
    · simp only [flushEmitted, if_pos h0, h1, ne_eq, not_true_eq_false, if_false] at hs
      exact h s hs
    · simp only [flushEmitted, if_pos h0, ne_eq, h1, not_false_eq_true, if_true] at hs
      rw [List.mem_append, List.mem_singleton] at hs
      rcases hs with hs | hs
      · exact h s hs
      · subst hs
        obtain ⟨cc, hmem, hns⟩ := exists_nonspace_of_trimSpace_ne_nil st.buffer h1
        exact trimSpace_ne_nil_of_mem_not_space _ cc hmem hns
  · simp only [flushEmitted, if_neg h0] at hs
    exact h s hs

/-- C9: every sentence the segmenter forwards to synthesis, whether from a
`feed` extraction or from the terminal flush, is nonempty and still
nonempty after whitespace trimming. -/
theorem no_empty_synthesis (chunks : List (List Char)) (s : List Char)
    (hs : s ∈ flushEmitted (feedAll initSeg chunks)) :
    trimSpace s ≠ [] ∧ s ≠ [] := by
  have hinit : ∀ x ∈ initSeg.emitted, trimSpace x ≠ [] := by
    intro x hx
    simp [initSeg] at hx
  have h := trim_emitted_flush _ (trim_emitted_feedAll initSeg chunks hinit) s hs
  refine ⟨h, ?_⟩
  intro he
  rw [he] at h
  exact h rfl

/-- Witness for C9 at a concrete run: the chunk `"hi. "` makes the
segmenter emit exactly `"hi."`, which trims to itself. -/
theorem no_empty_synthesis_witness :
    trimSpace "hi.".toList ≠ [] ∧ "hi.".toList ≠ [] :=
  no_empty_synthesis ["hi. ".toList] "hi.".toList (by decide)

/-- C2 (amended): at most one sentence is extracted per `feed`, and when
the right-most terminal character of the appended buffer sits at an index
of at least 1, the prefix up to and including it, trimmed, is emitted as
one sentence and the text after it becomes the new buffer.  (The original
claim, which asserted extraction whenever a terminal character is present
at all, fails when the right-most boundary is at index 0.) -/
theorem feed_extracts_rightmost_boundary (st : SegState) (chunk : List Char) :
    (feed st chunk).emitted.length ≤ st.emitted.length + 1 ∧
    ∀ b c, (st.buffer ++ chunk)[b]? = some c → isTerminalChar c = true →
      ((st.buffer ++ chunk).drop (b + 1)).all (fun d => !isTerminalChar d) = true →
      1 ≤ b →
      feed st chunk =
        { emitted := st.emitted ++ [trimSpace ((st.buffer ++ chunk).take (b + 1))],
          buffer := (st.buffer ++ chunk).drop (b + 1) } := by
  constructor
  · by_cases hb : 1 ≤ lastBoundaryOf (st.buffer ++ chunk)
    · rw [feed_extract st chunk hb]
      simp
    · rw [feed_no_boundary st chunk (by omega)]
      simp
  · intro b c hget hterm hafter hb1
    have heq := lastBoundaryOf_eq_of_rightmost (st.buffer ++ chunk) b c hget hterm hafter
    have hb : 1 ≤ lastBoundaryOf (st.buffer ++ chunk) := by omega
    rw [feed_extract st chunk hb, heq]
    simp

/-- Witness for C2 (amended): feeding `"Hi. How"` to a fresh segmenter
extracts `"Hi."` and keeps `" How"`. -/
theorem feed_extracts_rightmost_boundary_witness :
    feed initSeg "Hi. How".toList =
      { emitted := ["Hi.".toList], buffer := " How".toList } := by
  rw [(feed_extracts_rightmost_boundary initSeg "Hi. How".toList).2 2 '.'
    (by decide) (by decide) (by decide) (by decide)]
  decide

/-- C2 counterexample: the buffer `"."` contains a terminal character, yet
`feed` emits nothing because the right-most boundary is at index 0 — the
claim as stated requires the sentence `"."` to be emitted here. -/
theorem feed_boundary_without_emit_cex :
    (initSeg.buffer ++ ".".toList).contains '.' = true ∧
    (feed initSeg ".".toList).emitted = [] ∧
    (feed initSeg ".".toList).buffer = ".".toList := by
  decide

/-- C10: when the right-most boundary of the appended text sits at index 0
the segmenter emits nothing and the whole appended text stays buffered. -/
theorem boundary_at_zero_suppressed (st : SegState) (chunk : List Char)
    (h : lastBoundaryOf (st.buffer ++ chunk) = 0) :
    feed st chunk = { st with buffer := st.buffer ++ chunk } :=
  feed_no_boundary st chunk (by omega)

/-- Witness for C10 at the concrete buffer `"."`. -/
theorem boundary_at_zero_suppressed_witness :
    lastBoundaryOf (initSeg.buffer ++ ".".toList) = 0 ∧
    feed initSeg ".".toList = { initSeg with buffer := initSeg.buffer ++ ".".toList } :=
  ⟨by decide, boundary_at_zero_suppressed initSeg ".".toList (by decide)⟩

/-! ## Claim theorem: audio framing -/

theorem frame_nil : frame [] = [] := by
  rw [frame]

theorem frame_cons (x : Nat) (xs : List Nat) :
    frame (x :: xs) = (x :: xs).take frameSize :: frame ((x :: xs).drop frameSize) := by
  rw [frame]

/-- C3: for audio of `N` bytes the delivery loop produces exactly
`⌈N/160⌉` frames, concatenating them in order reproduces the audio, every
frame except possibly the last has exactly 160 bytes, and every frame is
nonempty with at most 160 bytes. -/
theorem frame_complete (audio : List Nat) :
    (frame audio).flatten = audio ∧
    (frame audio).length = (audio.length + (frameSize - 1)) / frameSize ∧
    (∀ f ∈ (frame audio).dropLast, f.length = frameSize) ∧
    (∀ f ∈ frame audio, 0 < f.length ∧ f.length ≤ frameSize) := by
  induction audio using frame.induct with
  | case1 =>
    refine ⟨by rw [frame_nil]; rfl, by rw [frame_nil]; rfl, ?_, ?_⟩
    · intro f hf
      rw [frame_nil] at hf
      simp at hf
    · intro f hf
      rw [frame_nil] at hf
      simp at hf
  | case2 x xs ih =>
    obtain ⟨ihflat, ihlen, ihinit, ihall⟩ := ih
    refine ⟨?_, ?_, ?_, ?_⟩
    · rw [frame_cons, List.flatten_cons, ihflat, List.take_append_drop]
    · rw [frame_cons, List.length_cons, ihlen]
      simp only [List.length_drop, List.length_cons, frameSize]
      omega
    · intro f hf
      rw [frame_cons] at hf
      cases hdrop : (x :: xs).drop frameSize with
      | nil =>
        rw [hdrop, frame_nil, List.dropLast_single] at hf
        simp at hf
      | cons y ys =>
        have hne : frame ((x :: xs).drop frameSize) ≠ [] := by
          rw [hdrop, frame_cons]
          exact List.cons_ne_nil _ _
        rw [List.dropLast_cons_of_ne_nil hne, List.mem_cons] at hf
        rcases hf with hf | hf
        · subst hf
          have hlen : frameSize < (x :: xs).length := by
            have := congrArg List.length hdrop
            simp only [List.length_drop, List.length_cons] at this ⊢
            omega
          rw [List.length_take]
          omega
        · exact ihinit f hf
    · intro f hf
      rw [frame_cons, List.mem_cons] at hf
      rcases hf with hf | hf
      · subst hf
        rw [List.length_take]
        simp only [List.length_cons, frameSize]
        omega
      · exact ihall f hf

theorem frame_eval_170 :
    frame (List.replicate 170 7) = [List.replicate 160 7, List.replicate 10 7] := by
  have e1 : frame (List.replicate 170 7) =
      (List.replicate 170 7).take frameSize :: frame ((List.replicate 170 7).drop frameSize) := by
    rw [show (List.replicate 170 7 : List Nat) = 7 :: List.replicate 169 7 from rfl, frame_cons]
  have e2 : frame (List.replicate 10 7) =
      (List.replicate 10 7).take frameSize :: frame ((List.replicate 10 7).drop frameSize) := by
    rw [show (List.replicate 10 7 : List Nat) = 7 :: List.replicate 9 7 from rfl, frame_cons]
  rw [e1]
  have ht : (List.replicate 170 7 : List Nat).take frameSize = List.replicate 160 7 := by
    simp [frameSize]
  have hd : (List.replicate 170 7 : List Nat).drop frameSize = List.replicate 10 7 := by
    simp [frameSize]
  rw [ht, hd, e2]
  have ht2 : (List.replicate 10 7 : List Nat).take frameSize = List.replicate 10 7 := by
    simp [frameSize]
  have hd2 : (List.replicate 10 7 : List Nat).drop frameSize = [] := by
    simp [frameSize]
  rw [ht2, hd2, frame_nil]

/-- Witness for C3 at 170 bytes: two frames, of 160 and 10 bytes, whose
concatenation is the original audio. -/
theorem frame_complete_witness :
    (frame (List.replicate 170 7)).flatten = List.replicate 170 7 ∧
    (frame (List.replicate 170 7)).length = 2 ∧
    (List.replicate 160 7).length = frameSize ∧
    0 < (List.replicate 10 7).length ∧ (List.replicate 10 7).length ≤ frameSize := by
  obtain ⟨h1, h2, h3, h4⟩ := frame_complete (List.replicate 170 7)
  refine ⟨h1, by rw [h2]; norm_num [frameSize], h3 (List.replicate 160 7) (by rw [frame_eval_170]; decide), ?_⟩
  have := h4 (List.replicate 10 7) (by rw [frame_eval_170]; decide)
  simpa using this

/-! ## Claim theorem: registry overwrite -/

/-- C4: when `c₁` is registered under `k` (and reachable only there),
registering `c₂` under the same `k` makes lookup of `k` return `c₂` and
leaves `c₁` unreachable under every identifier.  The update is a plain map
assignment: no close of the old connection appears anywhere in it. -/
theorem registry_overwrite (r : Registry) (k : CallId) (c₁ c₂ : Conn)
    (_hreg : lookup r k = some c₁)
    (honly : ∀ q, lookup r q = some c₁ → q = k)
    (hne : c₁ ≠ c₂) :
    lookup (register r k c₂) k = some c₂ ∧
    ∀ q, lookup (register r k c₂) q ≠ some c₁ := by
  constructor
  · simp [lookup, register]
  · intro q
    simp only [lookup, register]
    by_cases hq : q = k
    · rw [if_pos hq]
      intro hc
      exact hne (Option.some.inj hc).symm
    · rw [if_neg hq]
      intro hc
      exact hq (honly q hc)

/-- Witness for C4: register connection 1 then connection 2 under the same
call id; lookup returns 2 and 1 is gone. -/
theorem registry_overwrite_witness :
    lookup (register (register emptyRegistry "CA1".toList 1) "CA1".toList 2) "CA1".toList =
      some 2 ∧
    lookup (register (register emptyRegistry "CA1".toList 1) "CA1".toList 2) "CA2".toList ≠
      some 1 := by
  have h := registry_overwrite (register emptyRegistry "CA1".toList 1) "CA1".toList 1 2
    (by simp [lookup, register])
    (by
      intro q hq
      simp only [lookup, register, emptyRegistry] at hq
      by_cases hq1 : q = "CA1".toList
      · exact hq1
      · rw [if_neg hq1] at hq
        cases hq)
    (by decide)
  exact ⟨h.1, h.2 "CA2".toList⟩

/-! ## Claim theorems: termination phrases, history, missing connection -/

theorem hangup_mem_speechResult_iff (userText answer host : List Char) :
    Verb.hangup ∈ speechResultResponse userText answer host ↔
      (containsSub (goLower userText) "hang up".toList = true ∨
       containsSub (goLower userText) "goodbye".toList = true) := by
  by_cases h : wantsHangup userText = true
  · refine iff_of_true ?_ (by simpa [wantsHangup] using h)
    rw [speechResultResponse, if_pos h]
    simp
  · refine iff_of_false ?_ (by simpa [wantsHangup] using h)
    rw [speechResultResponse, if_neg h]
    simp

/-- C5: the speech-result webhook emits the `<Hangup/>` disconnect verb
exactly when the transcribed text case-insensitively contains "goodbye" or
"hang up"; with neither phrase present no disconnect verb is emitted. -/
theorem termination_core_iff (userText answer host : List Char) :
    Verb.hangup ∈ speechResultResponse userText answer host ↔
      (containsSub (goLower userText) "goodbye".toList = true ∨
       containsSub (goLower userText) "hang up".toList = true) := by
  rw [hangup_mem_speechResult_iff]
  tauto

/-- C6 counterexample: "take care" belongs to the claimed vocabulary and
occurs in the utterance "Take care now", yet neither webhook path emits a
disconnect for it: the speech-result handler plays a normal reply, and the
agent handler (whose vocabulary check runs on the AI response, not on the
utterance) returns a gather response with no hangup. -/
theorem termination_vocab_cex :
    "take care".toList ∈ goodbyePhrases ∧
    containsSub (goLower "Take care now".toList) "take care".toList = true ∧
    Verb.hangup ∉ speechResultResponse "Take care now".toList "ok".toList "example.com".toList ∧
    (handleInProgressCall "Ava".toList [] "Take care now".toList
        (some "The weather is sunny".toList)).1.hangup = false := by
  decide

/-- C6 (corrected): the full vocabulary ("goodbye", "bye", "have a great
day", "take care", "talk to you later") is applied by the agent handler to
the AI response, not to the webhook's transcribed text: for a non-empty
utterance the handler emits the explicit Hangup exactly when the AI
response case-insensitively contains a vocabulary phrase, and the farewell
spoken alongside it is the AI response itself. -/
theorem termination_vocab_amended (agentName : List Char) (history : List Msg)
    (speechResult aiResponse : List Char) (hne : speechResult ≠ []) :
    ((handleInProgressCall agentName history speechResult (some aiResponse)).1.hangup = true ↔
      ∃ p, p ∈ goodbyePhrases ∧ containsSub (goLower aiResponse) p = true) ∧
    ((handleInProgressCall agentName history speechResult (some aiResponse)).1.hangup = true →
      (handleInProgressCall agentName history speechResult (some aiResponse)).1.say =
        [aiResponse]) := by
  simp only [handleInProgressCall, if_neg hne]
  by_cases hend : shouldEndConversation aiResponse = true
  · have hex : ∃ p, p ∈ goodbyePhrases ∧ containsSub (goLower aiResponse) p = true := by
      simpa [shouldEndConversation, List.any_eq_true] using hend
    rw [if_pos hend]
    exact ⟨iff_of_true rfl hex, fun _ => rfl⟩
  · have hex : ¬∃ p, p ∈ goodbyePhrases ∧ containsSub (goLower aiResponse) p = true := by
      simpa [shouldEndConversation, List.any_eq_true] using hend
    rw [if_neg hend]
    refine ⟨iff_of_false ?_ hex, ?_⟩
    · simp [generateTwiMLResponse]
    · intro hfalse
      simp [generateTwiMLResponse] at hfalse

/-- Witness for C6 (corrected): the AI response "Goodbye, have a great
day!" makes the agent handler speak it and hang up. -/
theorem termination_vocab_amended_witness :
    (handleInProgressCall "Ava".toList [] "hello".toList
        (some "Goodbye, have a great day!".toList)).1.hangup = true ∧
    (handleInProgressCall "Ava".toList [] "hello".toList
        (some "Goodbye, have a great day!".toList)).1.say =
      ["Goodbye, have a great day!".toList] := by
  have h := termination_vocab_amended "Ava".toList [] "hello".toList
    "Goodbye, have a great day!".toList (by decide)
  have h1 := h.1.mpr ⟨"goodbye".toList, by decide, by decide⟩
  exact ⟨h1, h.2 h1⟩

/-- C7 counterexample: the streaming orchestrator builds its model prompt
from the new utterance alone.  For a conversation whose history holds the
earlier assistant turn "Paris is the capital of France.", the claim puts
that content into the model-call context, but the whole context is the
fixed instruction plus the utterance and contains no earlier turn. -/
theorem stream_prompt_no_history_cex :
    streamPromptOf "And Germany?".toList =
      ("You are a concise helpful assistant. Give a brief answer in 2-3 sentences: " ++
        "And Germany?").toList ∧
    containsSub (streamPromptOf "And Germany?".toList) "Paris".toList = false := by
  decide

/-- C7 (corrected, agent path): for a non-empty utterance the agent
handler issues the model request with the accumulated history plus the new
utterance appended as the trailing user message (the utterance is also the
message sent), and after the turn the history is the old history plus one
user and one assistant message. -/
theorem agent_history_accumulation (agentName : List Char) (history : List Msg)
    (u r : List Char) (hne : u ≠ []) :
    (handleInProgressCall agentName history u (some r)).2.2 =
      some (toChatHistory history ++ [(userRole, u)], u) ∧
    (handleInProgressCall agentName history u (some r)).2.1 =
      history ++ [⟨userRole, u⟩, ⟨assistantRole, r⟩] := by
  simp only [handleInProgressCall, if_neg hne, processVoiceInputRequest]
  constructor
  · have hrole : ¬(userRole = assistantRole ∨ userRole = modelRole) := by decide
    simp [toChatHistory, hrole]
  · simp

/-- Witness for C7 (corrected) on an empty starting history. -/
theorem agent_history_accumulation_witness :
    (handleInProgressCall "Ava".toList [] "Hi".toList (some "Hello there.".toList)).2.2 =
      some ([(userRole, "Hi".toList)], "Hi".toList) ∧
    (handleInProgressCall "Ava".toList [] "Hi".toList (some "Hello there.".toList)).2.1 =
      [⟨userRole, "Hi".toList⟩, ⟨assistantRole, "Hello there.".toList⟩] := by
  have h := agent_history_accumulation "Ava".toList [] "Hi".toList "Hello there.".toList
    (by decide)
  simpa using h

/-- C8 counterexample: with no connection registered for the call the
handler is not silent: it answers the webhook with the spoken apology
"Sorry, there was a connection error. Goodbye." and no gather, so an error
message does reach the caller, contrary to the claim. -/
theorem missing_connection_not_silent_cex :
    processSpeech emptyRegistry "What time is it".toList "CA123".toList =
      ([Verb.say connErrorText], false) ∧
    connErrorText ≠ [] := by
  decide

/-- C8 (corrected): for a non-empty speech result whose call has no
registry connection, the pipeline is not launched (the turn is aborted and
the call is not hung up by the handler), and the response is the spoken
connection-error apology rather than silence. -/
theorem missing_connection_abandon (reg : Registry) (speechResult callSid : List Char)
    (hne : speechResult ≠ []) (hmiss : lookup reg callSid = none) :
    processSpeech reg speechResult callSid = ([Verb.say connErrorText], false) := by
  rw [processSpeech, if_neg hne, hmiss]

/-- Witness for C8 (corrected) on the empty registry. -/
theorem missing_connection_abandon_witness :
    processSpeech emptyRegistry "hello".toList "CA999".toList =
      ([Verb.say connErrorText], false) :=
  missing_connection_abandon emptyRegistry "hello".toList "CA999".toList (by decide) rfl

end HeyAI
